import Mathlib

set_option maxHeartbeats 2000000
set_option maxRecDepth 8000

/-!
Verification development for the rush HTTP router (trie.go, router.go).

Modelling conventions:
* Go strings that are scanned byte-by-byte (URL paths, path segments,
  parameter names) are modelled as lists of characters.
* HTTP method names are modelled as Lean strings.
* Go maps are modelled as association lists with unique keys; map writes
  are modelled by an update-or-append operation.
* Go panics are modelled with the Except monad; nil pointers with Option.
* The mutation of the request path-value bag performed while matching a
  parameter segment is a side effect on the request object and does not
  influence which node the matcher returns; it is not modelled.
-/

namespace Rush

/-- Trie node, from trie.go. Fields: segment (literal segment, parameter
name, or the wildcard marker), children (map from literal segment to child),
paramChild, wildcardChild, handlers (map from method name to handler), and
the memoized allowHeader string. -/
inductive node (α : Type) : Type where
  | mk (segment : List Char) (children : List (List Char × node α))
       (paramChild : Option (node α)) (wildcardChild : Option (node α))
       (handlers : List (String × α)) (allowHeader : String)

/-- Projection for the segment field. -/
def node.segment {α : Type} : node α → List Char
  | .mk s _ _ _ _ _ => s

/-- Projection for the children field. -/
def node.children {α : Type} : node α → List (List Char × node α)
  | .mk _ c _ _ _ _ => c

/-- Projection for the paramChild field. -/
def node.paramChild {α : Type} : node α → Option (node α)
  | .mk _ _ p _ _ _ => p

/-- Projection for the wildcardChild field. -/
def node.wildcardChild {α : Type} : node α → Option (node α)
  | .mk _ _ _ w _ _ => w

/-- Projection for the handlers field. -/
def node.handlers {α : Type} : node α → List (String × α)
  | .mk _ _ _ _ h _ => h

/-- Projection for the allowHeader field. -/
def node.allowHeader {α : Type} : node α → String
  | .mk _ _ _ _ _ a => a

/-- newNode from trie.go: a fresh node with the given segment, no children,
no handlers and an empty allow-header cache. -/
def newNode {α : Type} (segment : List Char) : node α :=
  .mk segment [] none none [] ""

/-- Lookup of a literal segment in the children map (Go map read). -/
def findSeg {α : Type} (seg : List Char) : List (List Char × node α) → Option (node α)
  | [] => none
  | (k, v) :: rest => if k = seg then some v else findSeg seg rest

/-- Write to the children map (Go map write): update in place or append. -/
def setChild {α : Type} (k : List Char) (c : node α) :
    List (List Char × node α) → List (List Char × node α)
  | [] => [(k, c)]
  | (k0, v0) :: rest => if k0 = k then (k, c) :: rest else (k0, v0) :: setChild k c rest

/-- Lookup of a method in the handlers map (Go map read). -/
def findMethod {α : Type} (m : String) : List (String × α) → Option α
  | [] => none
  | (k, v) :: rest => if k = m then some v else findMethod m rest

/-- Write to the handlers map (Go map write): update in place or append. -/
def setMethod {α : Type} (k : String) (v : α) : List (String × α) → List (String × α)
  | [] => [(k, v)]
  | (k0, v0) :: rest => if k0 = k then (k, v) :: rest else (k0, v0) :: setMethod k v rest

/-- The final loop of trie.insert: store the handler at the terminal node
under every method of the call. -/
def addHandlers {α : Type} (n : node α) (h : α) (methods : List String) : node α :=
  match n with
  | .mk sg ch pc wc hs ah => .mk sg ch pc wc (methods.foldl (fun acc m => setMethod m h acc) hs) ah

/-- Segment syntax test from nextOrCreate: strings.HasPrefix(segment, the
open brace) and strings.HasSuffix(segment, the close brace). -/
def isParamSeg (s : List Char) : Bool :=
  (s.head? == some '{') && (s.getLast? == some '}')

/-- Parameter name extraction from nextOrCreate: segment[1 : len(segment)-1]. -/
def paramName (s : List Char) : List Char :=
  (s.drop 1).dropLast

/-- splitPath from trie.go: strings.FieldsFunc(path, r == slash): split on
slashes, dropping empty tokens.  Accumulator-based so that it computes by
kernel reduction; acc holds the current field reversed. -/
def splitAux : List Char → List Char → List (List Char)
  | acc, [] => if acc.isEmpty then [] else [acc.reverse]
  | acc, c :: cs =>
    if c = '/' then
      if acc.isEmpty then splitAux [] cs else acc.reverse :: splitAux [] cs
    else splitAux (c :: acc) cs

/-- splitPath from trie.go. -/
def splitPath (path : List Char) : List (List Char) :=
  splitAux [] path

/-- The body of trie.insert together with node.nextOrCreate, fused into one
recursion over the segment list.  Each Go panic becomes an Except.error.
The per-segment order follows the source: first the wildcard-position check
of the insert loop, then nextOrCreate with the parameter-syntax branch
(empty-name check, creation, conflict check), the wildcard branch, and the
literal branch. -/
def insertLoop {α : Type} : node α → List (List Char) → α → List String → Except String (node α)
  | n, [], h, methods => .ok (addHandlers n h methods)
  | .mk sg ch pc wc hs ah, seg :: rest, h, methods =>
    if seg = ['*'] ∧ rest ≠ [] then
      .error "rush: wildcard can only be at the end of the route"
    else if isParamSeg seg then
      let name := paramName seg
      if name = [] then .error "rush: empty parameter name is not allowed"
      else
        match pc with
        | none =>
          match insertLoop (newNode name) rest h methods with
          | .error e => .error e
          | .ok c => .ok (.mk sg ch (some c) wc hs ah)
        | some p =>
          if p.segment ≠ name then .error "rush: parameter name conflict at the same path level"
          else
            match insertLoop p rest h methods with
            | .error e => .error e
            | .ok c => .ok (.mk sg ch (some c) wc hs ah)
    else if seg = ['*'] then
      match wc with
      | none =>
        match insertLoop (newNode ['*']) rest h methods with
        | .error e => .error e
        | .ok c => .ok (.mk sg ch pc (some c) hs ah)
      | some w =>
        match insertLoop w rest h methods with
        | .error e => .error e
        | .ok c => .ok (.mk sg ch pc (some c) hs ah)
    else
      match findSeg seg ch with
      | some c0 =>
        match insertLoop c0 rest h methods with
        | .error e => .error e
        | .ok c => .ok (.mk sg (setChild seg c ch) pc wc hs ah)
      | none =>
        match insertLoop (newNode seg) rest h methods with
        | .error e => .error e
        | .ok c => .ok (.mk sg (setChild seg c ch) pc wc hs ah)

/-- The trie structure from trie.go. -/
structure trie (α : Type) : Type where
  root : node α

/-- trie.insert from trie.go: split the pattern and walk/create nodes. -/
def trie.insert {α : Type} (t : trie α) (pattern : List Char) (handler : α)
    (methods : List String) : Except String (trie α) :=
  match insertLoop t.root (splitPath pattern) handler methods with
  | .ok r => .ok ⟨r⟩
  | .error e => .error e

theorem length_dropWhile_le (p : Char → Bool) :
    ∀ l : List Char, (l.dropWhile p).length ≤ l.length
  | [] => by simp
  | c :: cs => by
    rw [List.dropWhile_cons]
    by_cases h : p c = true
    · simp only [h, if_true]
      have := length_dropWhile_le p cs
      simp only [List.length_cons]
      omega
    · simp [h]

theorem length_segRest_lt (c : Char) (cs : List Char) :
    (((c :: cs).dropWhile (· != '/')).drop 1).length < (c :: cs).length := by
  have h1 : ((c :: cs).dropWhile (· != '/')).length ≤ (c :: cs).length :=
    length_dropWhile_le _ _
  simp only [List.length_drop, List.length_cons] at *
  omega

/-- node.match from trie.go (second, character-scanning version): at the end
of the path the node matches iff it has at least one handler; otherwise scan
the next segment (characters up to the next slash), try the literal child
(with backtracking), then the parameter child (with backtracking), then the
wildcard child, which is returned without recursion. -/
def nmatch {α : Type} : node α → List Char → Option (node α)
  | n, [] => if n.handlers.isEmpty then none else some n
  | n, c :: cs =>
    let seg := (c :: cs).takeWhile (· != '/')
    let rest := ((c :: cs).dropWhile (· != '/')).drop 1
    let viaChild :=
      match findSeg seg n.children with
      | some child => nmatch child rest
      | none => none
    match viaChild with
    | some m => some m
    | none =>
      let viaParam :=
        match n.paramChild with
        | some p => nmatch p rest
        | none => none
      match viaParam with
      | some m => some m
      | none => n.wildcardChild
termination_by n cs => cs.length
decreasing_by
  all_goals exact length_segRest_lt c cs

/-- trie.lookup from trie.go: start matching at index 1 of the path, i.e.
with the first character dropped. -/
def trie.lookup {α : Type} (t : trie α) (path : List Char) : Option (node α) :=
  nmatch t.root (path.drop 1)

/-- The trie of a fresh router, from New() in router.go. -/
def mkTrie {α : Type} : trie α := ⟨newNode ['/']⟩

/-- Lexicographic byte order on strings, the order used by slices.Sort on a
Go string slice (method names here are ASCII, so byte order and character
order agree). -/
def listLe : List Char → List Char → Bool
  | [], _ => true
  | _ :: _, [] => false
  | a :: as, b :: bs => if a = b then listLe as bs else decide (a < b)

/-- String comparison wrapper for listLe. -/
def strLe (a b : String) : Bool := listLe a.data b.data

/-- Insertion step of the sort used to model slices.Sort. -/
def insertSorted (s : String) : List String → List String
  | [] => [s]
  | t :: rest => if strLe s t then s :: t :: rest else t :: insertSorted s rest

/-- slices.Sort on a slice of method names, modelled as insertion sort with
the same lexicographic order. -/
def sortStrs : List String → List String
  | [] => []
  | s :: rest => insertSorted s (sortStrs rest)

/-- node.allow from trie.go: if the cache is empty, collect the method keys
of the handlers map, append OPTIONS when absent, sort, join with a comma and
a space, and memoize; otherwise return the cache.  Modelled with explicit
state passing: the returned node carries the updated cache. -/
def nAllow {α : Type} (n : node α) : String × node α :=
  if n.allowHeader = "" then
    let keys := n.handlers.map Prod.fst
    let methods := if keys.contains "OPTIONS" then keys else keys ++ ["OPTIONS"]
    let s := String.intercalate ", " (sortStrs methods)
    (s, match n with | .mk sg ch pc wc hs _ => .mk sg ch pc wc hs s)
  else (n.allowHeader, n)

/-- Adjacent-pair scan of needsCleaning from router.go: true iff some slash
is immediately followed by another slash or by a dot. -/
def hasBadPair : List Char → Bool
  | a :: b :: rest => (a == '/' && (b == '/' || b == '.')) || hasBadPair (b :: rest)
  | _ => false

/-- needsCleaning from router.go: with n = len(path)-1, report true when
n greater than 1 and the last byte is a slash, or when some byte i below n
is a slash followed by a slash or a dot (that is every adjacent pair). -/
def needsCleaning (path : List Char) : Bool :=
  (decide (1 < path.length - 1) && (path.getLast? == some '/')) || hasBadPair path

/-- Modelled from the spec: the segment-stack core of the Go standard
library function path.Clean, the external normalization collaborator invoked
by Router.handleRequest (spec sections 4.4 and out-of-scope collaborators:
collapsing repeated slashes and resolving dot and dot-dot segments).  out
holds the already-emitted segments in reverse. -/
def cleanSegs (rooted : Bool) : List (List Char) → List (List Char) → List (List Char)
  | out, [] => out.reverse
  | out, s :: rest =>
    if s = ['.'] then cleanSegs rooted out rest
    else if s = ['.', '.'] then
      match out, rooted with
      | [], true => cleanSegs rooted [] rest
      | _ :: t, true => cleanSegs rooted t rest
      | [], false => cleanSegs rooted [['.', '.']] rest
      | t0 :: t, false =>
        if t0 = ['.', '.'] then cleanSegs rooted (['.', '.'] :: t0 :: t) rest
        else cleanSegs rooted t rest
    else cleanSegs rooted (s :: out) rest

/-- Modelled from the spec: the Go standard library function path.Clean on a
path given as a character list (empty path becomes a dot; a rooted result
keeps its leading slash; an empty result becomes slash or dot). -/
def pathClean (p : List Char) : List Char :=
  if p = [] then ['.']
  else
    let rooted := p.head? == some '/'
    let segs := cleanSegs rooted [] (splitPath p)
    if rooted then
      match segs with
      | [] => ['/']
      | _ => '/' :: List.intercalate ['/'] segs
    else
      match segs with
      | [] => ['.']
      | _ => List.intercalate ['/'] segs

/-- The dispatch decision of Router.handleRequest and
Router.handleMethodNotAllowed, as an outcome value: exactly one of the
not-found handler, a redirect response, the auto-options handler, the
method-not-allowed handler, or the matched route handler fires. -/
inductive Outcome (α : Type) : Type where
  | notFound
  | redirect (location : List Char) (code : Nat)
  | autoOptions (allow : String)
  | methodNotAllowed (allow : String)
  | dispatch (handler : α)

/-- The router configuration bit read by handleRequest. -/
structure Config : Type where
  redirectTrailingSlash : Bool

/-- Router.handleRequest from router.go: clean the path only when the fast
scan demands it, look the cleaned path up in the trie, answer not-found on a
miss, otherwise redirect when trailing-slash redirection is on, the cleaned
path is not the root slash and the raw path ends in a slash (301 for GET,
308 for every other method), otherwise dispatch the handler registered for
the method, falling back to auto-options or method-not-allowed with the
memoized allow list of the matched node. -/
def handleRequest {α : Type} (cfg : Config) (t : trie α) (method : String)
    (rawPath : List Char) : Outcome α :=
  let urlPath := if needsCleaning rawPath then pathClean rawPath else rawPath
  match t.lookup urlPath with
  | none => .notFound
  | some nd =>
    if cfg.redirectTrailingSlash ∧ urlPath ≠ ['/'] ∧ rawPath.getLast? = some '/' then
      .redirect urlPath (if method = "GET" then 301 else 308)
    else
      match findMethod method nd.handlers with
      | some h => .dispatch h
      | none =>
        if method = "OPTIONS" then .autoOptions (nAllow nd).1
        else .methodNotAllowed (nAllow nd).1

/-- chain from router.go: iterate from the last middleware down to the first,
wrapping the handler, so that the first middleware in the list ends up as
the outermost layer. -/
def chain {α : Type} (middlewares : List (α → α)) (handler : α) : α :=
  middlewares.reverse.foldl (fun h m => m h) handler

/-- The per-instance registration state of a Router value from router.go:
its accumulated pattern prefix, its middleware list, and whether it is the
root.  The shared trie and the root dispatch-handler flag are threaded
separately, mirroring the state shared through the routes pointer. -/
structure SubR (α : Type) : Type where
  pfx : List Char
  middlewares : List (α → α)
  isRoot : Bool

/-- Router.cloneChain from router.go: the root contributes an empty chain to
its groups, a sub-router contributes a copy of its own chain. -/
def cloneChain {α : Type} (r : SubR α) : List (α → α) :=
  if r.isRoot then [] else r.middlewares

/-- allMethods from router.go. -/
def allMethods : List String :=
  ["GET", "HEAD", "POST", "PUT", "PATCH", "DELETE", "CONNECT", "OPTIONS", "TRACE"]

/-- The method normalization prelude of Router.Handle: uppercase every
method, add HEAD when GET is present without it, default to allMethods when
none are given. -/
def normalizeMethods (methods : List String) : List String :=
  let ms := methods.map String.toUpper
  let ms2 := if ms.contains "GET" && !(ms.contains "HEAD") then ms ++ ["HEAD"] else ms
  if ms2.isEmpty then allMethods else ms2

/-- A registration-phase operation on a router instance: Use, Handle, Group
or GroupWithPrefix (whose callback body is the nested operation list). -/
inductive RegOp (α : Type) : Type where
  | use (ms : List (α → α))
  | handle (pattern : List Char) (h : α) (methods : List String)
  | group (body : List (RegOp α))
  | groupWithPfx (p : List Char) (body : List (RegOp α))

/-- Interpreter for a registration script, following router.go: r is the
router instance the operations are invoked on, t the shared trie, built the
shared flag recording whether the root dispatch handler has been
constructed.  Use panics on the root once built is set and otherwise appends
to the instance chain; Handle normalizes methods, marks the root handler as
built on the root, wraps the handler with the instance chain on a non-root
instance, and inserts under the concatenated prefix; Group and
GroupWithPrefix run their body on a fresh instance seeded with cloneChain
and leave the calling instance untouched. -/
def runOps {α : Type} : SubR α → trie α → Bool → List (RegOp α) →
    Except String (SubR α × trie α × Bool)
  | r, t, built, [] => .ok (r, t, built)
  | r, t, built, .use ms :: rest =>
    if r.isRoot ∧ built then
      .error "rush: all root-level middlewares must be defined before routes"
    else runOps { r with middlewares := r.middlewares ++ ms } t built rest
  | r, t, built, .handle pattern h methods :: rest =>
    let ms := normalizeMethods methods
    let built2 := if r.isRoot then true else built
    let h2 := if r.isRoot then h else chain r.middlewares h
    match t.insert (r.pfx ++ pattern) h2 ms with
    | .error e => .error e
    | .ok t2 => runOps r t2 built2 rest
  | r, t, built, .group body :: rest =>
    match runOps ⟨r.pfx, cloneChain r, false⟩ t built body with
    | .error e => .error e
    | .ok (_, t2, b2) => runOps r t2 b2 rest
  | r, t, built, .groupWithPfx p body :: rest =>
    match runOps ⟨r.pfx ++ p, cloneChain r, false⟩ t built body with
    | .error e => .error e
    | .ok (_, t2, b2) => runOps r t2 b2 rest

/-! ## General lemmas about the matcher -/

theorem nmatch_nil {α : Type} (n : node α) :
    nmatch n [] = if n.handlers.isEmpty then none else some n := by
  simp [nmatch]

theorem nmatch_cons {α : Type} (n : node α) (c : Char) (cs : List Char) :
    nmatch n (c :: cs) =
      (match (match findSeg ((c :: cs).takeWhile (· != '/')) n.children with
              | some child => nmatch child (((c :: cs).dropWhile (· != '/')).drop 1)
              | none => none) with
       | some m => some m
       | none =>
         match (match n.paramChild with
                | some p => nmatch p (((c :: cs).dropWhile (· != '/')).drop 1)
                | none => none) with
         | some m => some m
         | none => n.wildcardChild) := by
  rw [nmatch]

/-- Scenario scaffolding: run an insert and keep the old trie on error. -/
def insD {α : Type} (t : trie α) (pat : String) (h : α) (ms : List String) : trie α :=
  match t.insert pat.data h ms with
  | .ok t2 => t2
  | .error _ => t

/-! ## C1: lookup precedence law -/

/-- C1: at every trie level with a nonempty remaining path, the literal
child wins whenever its subtree yields a full match; when the literal
subtree yields no full match, the parameter child wins whenever its subtree
yields a full match; and the wildcard child is taken only after the literal
and parameter subtrees have been exhausted without a match, so the most
specific viable full-path match is chosen: exact, then parameter, then
wildcard, recursively with backtracking. -/
theorem claim_C1 {α : Type} (n : node α) (c : Char) (cs seg rest : List Char)
    (hseg : seg = (c :: cs).takeWhile (· != '/'))
    (hrest : rest = ((c :: cs).dropWhile (· != '/')).drop 1) :
    (∀ child m, findSeg seg n.children = some child → nmatch child rest = some m →
        nmatch n (c :: cs) = some m) ∧
    (∀ p m, (∀ child, findSeg seg n.children = some child → nmatch child rest = none) →
        n.paramChild = some p → nmatch p rest = some m →
        nmatch n (c :: cs) = some m) ∧
    (∀ w, (∀ child, findSeg seg n.children = some child → nmatch child rest = none) →
        (∀ p, n.paramChild = some p → nmatch p rest = none) →
        n.wildcardChild = some w →
        nmatch n (c :: cs) = some w) := by
  subst hseg hrest
  refine ⟨?_, ?_, ?_⟩
  · intro child m hchild hm
    rw [nmatch_cons]
    simp only [hchild, hm]
  · intro p m hchild hp hm
    rw [nmatch_cons]
    cases hfs : findSeg ((c :: cs).takeWhile (· != '/')) n.children with
    | none => simp only [hfs, hp, hm]
    | some child => simp only [hfs, hchild child hfs, hp, hm]
  · intro w hchild hp hw
    rw [nmatch_cons]
    cases hfs : findSeg ((c :: cs).takeWhile (· != '/')) n.children with
    | none =>
      cases hpc : n.paramChild with
      | none => simp only [hfs, hpc, hw]
      | some p => simp only [hfs, hpc, hp p hpc, hw]
    | some child =>
      cases hpc : n.paramChild with
      | none => simp only [hfs, hchild child hfs, hpc, hw]
      | some p => simp only [hfs, hchild child hfs, hpc, hp p hpc, hw]

/-- Witness for C1 at a concrete one-level trie that has a literal child a,
a parameter child and a wildcard child: the literal wins on path a, the
parameter wins on path b, and on a node whose parameter subtree dead-ends
the wildcard is taken. -/
theorem claim_C1_witness :
    (nmatch (node.mk ['/']
        [(['a'], node.mk ['a'] [] none none [("GET", 10)] "")]
        (some (node.mk ['x'] [] none none [("GET", 11)] ""))
        (some (node.mk ['*'] [] none none [("GET", 12)] "")) [] "")
        ['a'] = some (node.mk ['a'] [] none none [("GET", 10)] "")) ∧
    (nmatch (node.mk ['/']
        [(['a'], node.mk ['a'] [] none none [("GET", 10)] "")]
        (some (node.mk ['x'] [] none none [("GET", 11)] ""))
        (some (node.mk ['*'] [] none none [("GET", 12)] "")) [] "")
        ['b'] = some (node.mk ['x'] [] none none [("GET", 11)] "")) ∧
    (nmatch (node.mk ['/']
        [(['a'], node.mk ['a'] [] none none [("GET", 10)] "")]
        (some (node.mk ['x'] [] none none [] ""))
        (some (node.mk ['*'] [] none none [("GET", 12)] "")) [] "")
        ['b'] = some (node.mk ['*'] [] none none [("GET", 12)] "")) := by
  refine ⟨?_, ?_, ?_⟩
  · exact (claim_C1 _ 'a' [] ['a'] [] rfl rfl).1
      (node.mk ['a'] [] none none [("GET", 10)] "") _
      (by simp [findSeg, node.children]) (by simp [nmatch, node.handlers])
  · exact (claim_C1 _ 'b' [] ['b'] [] rfl rfl).2.1
      (node.mk ['x'] [] none none [("GET", 11)] "") _
      (by intro child hch; simp [findSeg, node.children] at hch)
      (by simp [node.paramChild]) (by simp [nmatch, node.handlers])
  · exact (claim_C1 _ 'b' [] ['b'] [] rfl rfl).2.2
      (node.mk ['*'] [] none none [("GET", 12)] "")
      (by intro child hch; simp [findSeg, node.children] at hch)
      (by intro p hp; simp [node.paramChild] at hp; subst hp; simp [nmatch, node.handlers])
      (by simp [node.wildcardChild])

/-! ## C10: a strict prefix of a registered pattern never matches -/

/-- m is the wildcard child of some node reachable from n through children
and parameter links (so m was returned by the wildcard fallback). -/
inductive wildAnc {α : Type} : node α → node α → Prop where
  | here : ∀ {n w : node α}, n.wildcardChild = some w → wildAnc n w
  | viaChild : ∀ {n c m : node α} {k : List Char},
      findSeg k n.children = some c → wildAnc c m → wildAnc n m
  | viaParam : ∀ {n p m : node α},
      n.paramChild = some p → wildAnc p m → wildAnc n m

theorem nmatch_handlers_or_wild {α : Type} : (cs : List Char) → (n m : node α) →
    nmatch n cs = some m → m.handlers ≠ [] ∨ wildAnc n m
  | [], n, m, h => by
    rw [nmatch_nil] at h
    by_cases he : n.handlers.isEmpty
    · simp [he] at h
    · simp only [he, if_false] at h
      cases h
      left
      simpa [List.isEmpty_iff] using he
  | c :: cs', n, m, h => by
    rw [nmatch_cons] at h
    cases hfs : findSeg ((c :: cs').takeWhile (· != '/')) n.children with
    | some child =>
      simp only [hfs] at h
      cases hcm : nmatch child (((c :: cs').dropWhile (· != '/')).drop 1) with
      | some m2 =>
        simp only [hcm] at h
        cases h
        rcases nmatch_handlers_or_wild _ child m hcm with h1 | h1
        · exact Or.inl h1
        · exact Or.inr (wildAnc.viaChild hfs h1)
      | none =>
        simp only [hcm] at h
        cases hpc : n.paramChild with
        | some p =>
          simp only [hpc] at h
          cases hpm : nmatch p (((c :: cs').dropWhile (· != '/')).drop 1) with
          | some m2 =>
            simp only [hpm] at h
            cases h
            rcases nmatch_handlers_or_wild _ p m hpm with h1 | h1
            · exact Or.inl h1
            · exact Or.inr (wildAnc.viaParam hpc h1)
          | none =>
            simp only [hpm] at h
            exact Or.inr (wildAnc.here h)
        | none =>
          simp only [hpc] at h
          exact Or.inr (wildAnc.here h)
    | none =>
      simp only [hfs] at h
      cases hpc : n.paramChild with
      | some p =>
        simp only [hpc] at h
        cases hpm : nmatch p (((c :: cs').dropWhile (· != '/')).drop 1) with
        | some m2 =>
          simp only [hpm] at h
          cases h
          rcases nmatch_handlers_or_wild _ p m hpm with h1 | h1
          · exact Or.inl h1
          · exact Or.inr (wildAnc.viaParam hpc h1)
        | none =>
          simp only [hpm] at h
          exact Or.inr (wildAnc.here h)
      | none =>
        simp only [hpc] at h
        exact Or.inr (wildAnc.here h)
termination_by cs _ _ _ => cs.length
decreasing_by
  all_goals exact length_segRest_lt c cs'

/-- Scenario trie with only GET /a/b registered. -/
def tAB : trie Nat := insD mkTrie "/a/b" 0 ["GET"]

/-- C10: every node returned by lookup either has a registered handler or
was produced by the wildcard fallback of some node along the walk; an
interior node with an empty handler map never matches, and concretely, with
only GET /a/b registered, looking up /a yields no match. -/
theorem claim_C10 :
    (∀ {α : Type} (t : trie α) (path : List Char) (m : node α),
        t.lookup path = some m → m.handlers ≠ [] ∨ wildAnc t.root m) ∧
    tAB.lookup "/a".data = none := by
  constructor
  · intro α t path m h
    exact nmatch_handlers_or_wild _ t.root m h
  · simp [tAB, insD, trie.insert, trie.lookup, mkTrie, splitPath, splitAux, insertLoop,
      nmatch, newNode, findSeg, setChild, addHandlers, setMethod, isParamSeg,
      node.handlers, node.children, node.paramChild, node.wildcardChild]

/-- Witness for C10: the lookup of /a/b in the same trie succeeds, and the
returned node carries a handler. -/
theorem claim_C10_witness :
    (node.mk ['b'] [] none none [("GET", 0)] "").handlers ≠ [] ∨
      wildAnc tAB.root (node.mk ['b'] [] none none [("GET", 0)] "") := by
  refine claim_C10.1 tAB "/a/b".data _ ?_
  simp [tAB, insD, trie.insert, trie.lookup, mkTrie, splitPath, splitAux, insertLoop,
    nmatch, newNode, findSeg, setChild, addHandlers, setMethod, isParamSeg,
    node.handlers, node.children, node.paramChild, node.wildcardChild]

/-! ## C2: empty segments at insertion and at lookup -/

theorem splitAux_collapse (ys : List Char) : ∀ (xs acc : List Char),
    splitAux acc (xs ++ '/' :: '/' :: ys) = splitAux acc (xs ++ '/' :: ys)
  | [], acc => by
    by_cases h : acc.isEmpty <;> simp [splitAux, h]
  | x :: xs', acc => by
    by_cases h : x = '/'
    · subst h
      by_cases h2 : acc.isEmpty <;>
        simp [splitAux, h2, splitAux_collapse ys xs' []]
    · simp [splitAux, h, splitAux_collapse ys xs' (x :: acc)]

/-- Scenario trie with only GET /api/v1/status registered. -/
def tAPI : trie Nat := insD mkTrie "/api/v1/status" 0 ["GET"]

/-- Counterexample to C2: with only GET /a/b registered, the trie lookup of
/a//b fails while the trie lookup of /a/b succeeds, so looking up /a//b does
not address the same trie node as /a/b: the character-scanning matcher does
not skip the empty segment between the repeated slashes. -/
theorem claim_C2_counterexample :
    tAB.lookup "/a//b".data = none ∧ tAB.lookup "/a/b".data ≠ none := by
  constructor <;>
    simp [tAB, insD, trie.insert, trie.lookup, mkTrie, splitPath, splitAux, insertLoop,
      nmatch, newNode, findSeg, setChild, addHandlers, setMethod, isParamSeg,
      node.handlers, node.children, node.paramChild, node.wildcardChild]

/-- C2 (amended): empty path segments produced by repeated slashes are
skipped during trie insertion — splitting a pattern ignores empty tokens, so
inserting /a//b addresses the same trie node as /a/b — but trie lookup scans
the raw characters and does not skip them; the router-level scenario still
holds because dispatch cleans such a path before the lookup: registering
GET /api/v1/status and dispatching GET /api///v1///status yields that
route's handler. -/
theorem claim_C2 :
    (∀ (xs ys : List Char), splitPath (xs ++ '/' :: '/' :: ys) = splitPath (xs ++ '/' :: ys)) ∧
    (∀ {α : Type} (t : trie α) (h : α) (ms : List String) (xs ys : List Char),
        t.insert (xs ++ '/' :: '/' :: ys) h ms = t.insert (xs ++ '/' :: ys) h ms) ∧
    handleRequest ⟨false⟩ tAPI "GET" "/api///v1///status".data = .dispatch 0 := by
  refine ⟨fun xs ys => splitAux_collapse ys xs [], ?_, ?_⟩
  · intro α t h ms xs ys
    unfold trie.insert
    rw [show splitPath (xs ++ '/' :: '/' :: ys) = splitPath (xs ++ '/' :: ys) from
      splitAux_collapse ys xs []]
  · simp [tAPI, insD, trie.insert, trie.lookup, mkTrie, splitPath, splitAux, insertLoop,
      nmatch, newNode, findSeg, setChild, addHandlers, setMethod, isParamSeg,
      node.handlers, node.children, node.paramChild, node.wildcardChild,
      handleRequest, needsCleaning, hasBadPair, pathClean, cleanSegs, findMethod,
      List.intercalate]

/-! ## C3: the wildcard remainder rule -/

/-- A plain literal pattern segment: nonempty, slash-free, not parameter
syntax and not the wildcard marker. -/
def LitSeg (s : List Char) : Prop :=
  s ≠ [] ∧ '/' ∉ s ∧ isParamSeg s = false ∧ s ≠ ['*']

/-- Join segments with slashes (no leading slash). -/
def joinSegs : List (List Char) → List Char
  | [] => []
  | [s] => s
  | s :: rest => s ++ '/' :: joinSegs rest

theorem joinSegs_cons_ne (s : List Char) (L : List (List Char)) (h : L ≠ []) :
    joinSegs (s :: L) = s ++ '/' :: joinSegs L := by
  cases L with
  | nil => exact absurd rfl h
  | cons a as => rfl

theorem takeWhile_noSlash (s : List Char) (h : '/' ∉ s) :
    s.takeWhile (· != '/') = s := by
  induction s with
  | nil => rfl
  | cons c cs ih =>
    simp only [List.mem_cons, not_or] at h
    rw [List.takeWhile_cons]
    have hc : (c != '/') = true := by
      simp only [bne_iff_ne, ne_eq]
      exact fun hcc => h.1 hcc.symm
    simp [hc, ih h.2]

theorem dropWhile_noSlash (s : List Char) (h : '/' ∉ s) :
    s.dropWhile (· != '/') = [] := by
  induction s with
  | nil => rfl
  | cons c cs ih =>
    simp only [List.mem_cons, not_or] at h
    rw [List.dropWhile_cons]
    have hc : (c != '/') = true := by
      simp only [bne_iff_ne, ne_eq]
      exact fun hcc => h.1 hcc.symm
    simp [hc, ih h.2]

theorem takeWhile_slashSplit (s tail : List Char) (h : '/' ∉ s) :
    (s ++ '/' :: tail).takeWhile (· != '/') = s := by
  induction s with
  | nil => simp [List.takeWhile_cons]
  | cons c cs ih =>
    simp only [List.mem_cons, not_or] at h
    rw [List.cons_append, List.takeWhile_cons]
    have hc : (c != '/') = true := by
      simp only [bne_iff_ne, ne_eq]
      exact fun hcc => h.1 hcc.symm
    simp [hc, ih h.2]

theorem dropWhile_slashSplit (s tail : List Char) (h : '/' ∉ s) :
    (s ++ '/' :: tail).dropWhile (· != '/') = '/' :: tail := by
  induction s with
  | nil => simp [List.dropWhile_cons]
  | cons c cs ih =>
    simp only [List.mem_cons, not_or] at h
    rw [List.cons_append, List.dropWhile_cons]
    have hc : (c != '/') = true := by
      simp only [bne_iff_ne, ne_eq]
      exact fun hcc => h.1 hcc.symm
    simp [hc, ih h.2]

/-- Inserting the pattern P/* (P a list of literal segments) into a fresh
node builds a chain whose terminal carries the wildcard child; matching
exactly P against it fails (the P node has no handlers and the wildcard is
never consulted at the end of the path), while matching P followed by any
nonempty remainder returns the wildcard node. -/
theorem wildcard_chain {α : Type} (h0 : α) (ms : List String) :
    ∀ (segs : List (List Char)), (∀ s ∈ segs, LitSeg s) → ∀ (sg : List Char),
    ∃ r, insertLoop (newNode sg) (segs ++ [['*']]) h0 ms = .ok r ∧
      nmatch r (joinSegs segs) = none ∧
      ∀ ext, ext ≠ [] → nmatch r (joinSegs (segs ++ [ext])) =
        some (addHandlers (newNode ['*']) h0 ms)
  | [], _, sg => by
    refine ⟨node.mk sg [] none (some (addHandlers (newNode ['*']) h0 ms)) [] "", ?_, ?_, ?_⟩
    · simp [insertLoop, newNode, isParamSeg]
    · simp [joinSegs, nmatch, node.handlers]
    · intro ext hext
      obtain ⟨e, es, rfl⟩ := List.exists_cons_of_ne_nil hext
      rw [show joinSegs ([] ++ [e :: es]) = e :: es from rfl, nmatch_cons]
      simp [findSeg, node.children, node.paramChild, node.wildcardChild]
  | s :: segs', hl, sg => by
    have hls : LitSeg s := hl s (List.mem_cons_self s segs')
    obtain ⟨r', hins, hnone, hext⟩ :=
      wildcard_chain h0 ms segs' (fun x hx => hl x (List.mem_cons_of_mem s hx)) s
    refine ⟨node.mk sg [(s, r')] none none [] "", ?_, ?_, ?_⟩
    · have hcond : ¬(s = ['*'] ∧ segs' ++ [['*']] ≠ []) := fun hc => hls.2.2.2 hc.1
      rw [List.cons_append]
      simp only [newNode] at hins
      simp [insertLoop, newNode, hcond, hls.2.2.1, hls.2.2.2, findSeg, hins, setChild]
    · obtain ⟨c0, s0, hs⟩ := List.exists_cons_of_ne_nil hls.1
      subst hs
      cases segs' with
      | nil =>
        have hnone2 : nmatch r' [] = none := hnone
        rw [show joinSegs [c0 :: s0] = c0 :: s0 from rfl, nmatch_cons,
          takeWhile_noSlash _ hls.2.1, dropWhile_noSlash _ hls.2.1]
        simp [findSeg, node.paramChild, node.wildcardChild, hnone2]
      | cons s2 rest2 =>
        have hnone2 : nmatch r' (joinSegs (s2 :: rest2)) = none := hnone
        rw [show joinSegs ((c0 :: s0) :: s2 :: rest2) =
              (c0 :: s0) ++ '/' :: joinSegs (s2 :: rest2) from rfl,
          List.cons_append, nmatch_cons, ← List.cons_append,
          takeWhile_slashSplit _ _ hls.2.1, dropWhile_slashSplit _ _ hls.2.1]
        simp [findSeg, node.paramChild, node.wildcardChild, hnone2]
    · intro ext hext2
      have hjoin : joinSegs ((s :: segs') ++ [ext]) =
          s ++ '/' :: joinSegs (segs' ++ [ext]) := by
        rw [List.cons_append]
        exact joinSegs_cons_ne s (segs' ++ [ext]) (by simp)
      obtain ⟨c0, s0, hs⟩ := List.exists_cons_of_ne_nil hls.1
      subst hs
      have hw : nmatch r' (joinSegs (segs' ++ [ext])) =
          some (addHandlers (newNode ['*']) h0 ms) := hext ext hext2
      rw [hjoin, List.cons_append, nmatch_cons, ← List.cons_append,
        takeWhile_slashSplit _ _ hls.2.1, dropWhile_slashSplit _ _ hls.2.1]
      simp [findSeg, node.paramChild, node.wildcardChild, hw]
termination_by segs => segs.length

/-- Scenario trie with GET /a/* and GET /{x} registered. -/
def tC3 : trie Nat := insD (insD mkTrie "/a/*" 0 ["GET"]) "/{x}" 1 ["GET"]

/-- Counterexample to C3 as stated: in the trie with GET /a/* and GET /{x}
registered, the pattern /a/* is registered and the node for the prefix /a
has no handler of its own, yet the lookup of /a does return a match (the
parameter route), not not-found. -/
theorem claim_C3_counterexample :
    findSeg ['a'] tC3.root.children =
      some (node.mk ['a'] [] none (some (node.mk ['*'] [] none none [("GET", 0)] "")) [] "") ∧
    tC3.lookup "/a".data = some (node.mk ['x'] [] none none [("GET", 1)] "") := by
  constructor <;>
    simp [tC3, insD, trie.insert, trie.lookup, mkTrie, splitPath, splitAux, insertLoop,
      nmatch, newNode, findSeg, setChild, addHandlers, setMethod, isParamSeg, paramName,
      node.handlers, node.children, node.paramChild, node.wildcardChild, node.segment]

/-- C3 (amended): in a trie in which only the pattern P/* is registered (P a
chain of literal segments, so that no other route can match), the lookup of
the path spelling exactly P returns no match — the node for P has no handler
and the wildcard child is never consulted once the path is exhausted — while
the lookup of P extended by any nonempty remainder returns the wildcard
node, unconditionally, consuming all remaining characters; in general a node
with an empty handler map never matches at the end of a path. -/
theorem claim_C3 :
    (∀ {α : Type} (h0 : α) (ms : List String) (pattern : List Char)
        (segs : List (List Char)) (t : trie α),
        splitPath pattern = segs ++ [['*']] →
        (∀ s ∈ segs, LitSeg s) →
        mkTrie.insert pattern h0 ms = .ok t →
        t.lookup ('/' :: joinSegs segs) = none) ∧
    (∀ {α : Type} (h0 : α) (ms : List String) (pattern : List Char)
        (segs : List (List Char)) (t : trie α),
        splitPath pattern = segs ++ [['*']] →
        (∀ s ∈ segs, LitSeg s) →
        mkTrie.insert pattern h0 ms = .ok t →
        ∀ ext, ext ≠ [] →
          t.lookup ('/' :: joinSegs (segs ++ [ext])) =
            some (addHandlers (newNode ['*']) h0 ms)) ∧
    (∀ {α : Type} (n : node α), n.handlers = [] → nmatch n [] = none) := by
  refine ⟨?_, ?_, ?_⟩
  · intro α h0 ms pattern segs t hsplit hlit hins
    obtain ⟨r, hr, hnone, _⟩ := wildcard_chain h0 ms segs hlit ['/']
    unfold trie.insert at hins
    rw [show (mkTrie : trie α).root = newNode ['/'] from rfl, hsplit, hr] at hins
    cases hins
    simpa [trie.lookup] using hnone
  · intro α h0 ms pattern segs t hsplit hlit hins ext hext
    obtain ⟨r, hr, _, hwild⟩ := wildcard_chain h0 ms segs hlit ['/']
    unfold trie.insert at hins
    rw [show (mkTrie : trie α).root = newNode ['/'] from rfl, hsplit, hr] at hins
    cases hins
    simpa [trie.lookup] using hwild ext hext
  · intro α n h
    rw [nmatch_nil, h]
    simp

/-- Scenario trie with only GET /p/* registered. -/
def tPW : trie Nat := insD mkTrie "/p/*" 0 ["GET"]

/-- Witness for C3: with only GET /p/* registered, the lookup of /p fails
and the lookup of /p/x returns the wildcard node. -/
theorem claim_C3_witness :
    tPW.lookup ('/' :: joinSegs [['p']]) = none ∧
    tPW.lookup ('/' :: joinSegs ([['p']] ++ [['x']])) =
      some (addHandlers (newNode ['*']) 0 ["GET"]) :=
  ⟨claim_C3.1 0 ["GET"] "/p/*".data [['p']] tPW rfl
      (by intro s hs; simp at hs; subst hs; refine ⟨by decide, by decide, by decide, by decide⟩)
      rfl,
   claim_C3.2.1 0 ["GET"] "/p/*".data [['p']] tPW rfl
      (by intro s hs; simp at hs; subst hs; refine ⟨by decide, by decide, by decide, by decide⟩)
      rfl ['x'] (by decide)⟩

/-! ## C9: soundness of the fast normalization scan -/

theorem hasBadPair_tail (c : Char) (rest : List Char)
    (h : hasBadPair (c :: rest) = false) : hasBadPair rest = false := by
  cases rest with
  | nil => rfl
  | cons b r2 =>
    simp only [hasBadPair, Bool.or_eq_false_iff] at h ⊢
    exact h.2

theorem hasBadPair_suffix : ∀ (xs ys : List Char), hasBadPair (xs ++ ys) = false →
    hasBadPair ys = false
  | [], _, h => h
  | x :: xs', ys, h => by
    rw [List.cons_append] at h
    exact hasBadPair_suffix xs' ys (hasBadPair_tail x _ h)

theorem hasBadPair_after_slash (b : Char) (rest : List Char)
    (h : hasBadPair ('/' :: b :: rest) = false) : b ≠ '/' ∧ b ≠ '.' := by
  simp only [hasBadPair, Bool.or_eq_false_iff, Bool.and_eq_false_iff] at h
  rcases h.1 with h1 | h1
  · simp at h1
  · constructor <;> intro hb <;> subst hb <;> simp at h1

theorem dropWhile_head_false (p : Char → Bool) :
    ∀ (l : List Char) (d : Char) (r : List Char), l.dropWhile p = d :: r → p d = false
  | [], _, _, h => by simp at h
  | x :: xs, d, r, h => by
    rw [List.dropWhile_cons] at h
    by_cases hx : p x = true
    · rw [if_pos hx] at h
      exact dropWhile_head_false p xs d r h
    · rw [if_neg hx] at h
      cases h
      simpa using hx

theorem splitAux_run : ∀ (seg acc rest : List Char), '/' ∉ seg →
    splitAux acc (seg ++ rest) = splitAux (seg.reverse ++ acc) rest
  | [], acc, rest, _ => by simp
  | c :: seg', acc, rest, h => by
    simp only [List.mem_cons, not_or] at h
    rw [List.cons_append]
    show splitAux acc (c :: (seg' ++ rest)) = _
    rw [show splitAux acc (c :: (seg' ++ rest)) =
          if c = '/' then
            (if acc.isEmpty then splitAux [] (seg' ++ rest)
             else acc.reverse :: splitAux [] (seg' ++ rest))
          else splitAux (c :: acc) (seg' ++ rest) from rfl]
    rw [if_neg (fun hc => h.1 hc.symm)]
    rw [splitAux_run seg' (c :: acc) rest h.2]
    simp

/-- Reassembly core: a nonempty character run that does not begin with a
slash or a dot, has no slash immediately followed by a slash or a dot, and
does not end with a slash, splits into nonempty dot-free segments whose
slash-joined concatenation is the run itself. -/
theorem recombine : ∀ (c : Char) (cs2 : List Char), c ≠ '/' → c ≠ '.' →
    hasBadPair (c :: cs2) = false → (c :: cs2).getLast? ≠ some '/' →
    List.intercalate ['/'] (splitAux [] (c :: cs2)) = c :: cs2 ∧
    splitAux [] (c :: cs2) ≠ [] ∧
    (∀ s ∈ splitAux [] (c :: cs2), s ≠ [] ∧ s.head? ≠ some '.') := by
  intro c cs2 hc hcdot hbad hlast
  have hpred : (c != '/') = true := by
    simp only [bne_iff_ne, ne_eq]
    exact hc
  have htw : (c :: cs2).takeWhile (· != '/') = c :: cs2.takeWhile (· != '/') := by
    rw [List.takeWhile_cons, if_pos hpred]
  have hnoslash : '/' ∉ (c :: cs2).takeWhile (· != '/') := by
    intro hmem
    have := List.mem_takeWhile_imp hmem
    simp at this
  have hdecomp : (c :: cs2).takeWhile (· != '/') ++ (c :: cs2).dropWhile (· != '/') =
      c :: cs2 := List.takeWhile_append_dropWhile _ _
  cases hdw : (c :: cs2).dropWhile (· != '/') with
  | nil =>
    have hseg : (c :: cs2).takeWhile (· != '/') = c :: cs2 := by
      rw [hdw, List.append_nil] at hdecomp
      exact hdecomp
    have hsplit : splitAux [] (c :: cs2) = [c :: cs2] := by
      have := splitAux_run (c :: cs2) [] [] (hseg ▸ hnoslash)
      rw [List.append_nil, List.append_nil] at this
      rw [this]
      simp [splitAux]
    rw [hsplit]
    refine ⟨by simp [List.intercalate, List.intersperse], by simp, ?_⟩
    intro s hs
    simp only [List.mem_singleton] at hs
    subst hs
    exact ⟨by simp, by simp [hcdot]⟩
  | cons d rest0 =>
    have hd : d = '/' := by
      have := dropWhile_head_false _ _ _ _ hdw
      simpa using this
    subst hd
    cases rest0 with
    | nil =>
      exfalso
      apply hlast
      rw [← hdecomp, hdw, List.getLast?_append_of_ne_nil _ (by simp)]
      rfl
    | cons b r1 =>
      have hbad2 : hasBadPair ('/' :: b :: r1) = false := by
        apply hasBadPair_suffix ((c :: cs2).takeWhile (· != '/'))
        rw [← hdw, hdecomp]
        exact hbad
      have hb := hasBadPair_after_slash b r1 hbad2
      have hbad3 : hasBadPair (b :: r1) = false := hasBadPair_tail _ _ hbad2
      have hlast2 : (b :: r1).getLast? ≠ some '/' := by
        intro hl
        apply hlast
        rw [← hdecomp, hdw, List.getLast?_append_of_ne_nil _ (by simp),
          List.getLast?_cons_cons]
        exact hl
      have hlen : (b :: r1).length < (c :: cs2).length := by
        have : ((c :: cs2).takeWhile (· != '/')).length + ('/' :: b :: r1).length =
            (c :: cs2).length := by
          rw [← List.length_append, ← hdw, hdecomp]
        simp only [htw] at this
        simp only [List.length_cons] at *
        omega
      obtain ⟨hintc, hne2, hmem2⟩ := recombine b r1 hb.1 hb.2 hbad3 hlast2
      have hdecomp2 : (c :: cs2).takeWhile (· != '/') ++ '/' :: b :: r1 = c :: cs2 := by
        rw [← hdw]
        exact hdecomp
      have hsplit : splitAux [] (c :: cs2) =
          (c :: cs2).takeWhile (· != '/') :: splitAux [] (b :: r1) := by
        conv_lhs => rw [← hdecomp2]
        rw [splitAux_run _ [] _ hnoslash, List.append_nil]
        rw [show splitAux ((c :: cs2).takeWhile (· != '/')).reverse ('/' :: b :: r1) =
              if ('/' : Char) = '/' then
                (if ((c :: cs2).takeWhile (· != '/')).reverse.isEmpty then
                   splitAux [] (b :: r1)
                 else ((c :: cs2).takeWhile (· != '/')).reverse.reverse ::
                   splitAux [] (b :: r1))
              else splitAux ('/' :: ((c :: cs2).takeWhile (· != '/')).reverse) (b :: r1)
            from rfl]
        rw [if_pos rfl]
        have : ((c :: cs2).takeWhile (· != '/')).reverse.isEmpty = false := by
          rw [htw]
          simp
        rw [this]
        simp
      rw [hsplit]
      obtain ⟨s2, t2, hshape⟩ := List.exists_cons_of_ne_nil hne2
      constructor
      · rw [hshape]
        rw [show List.intercalate ['/'] ((c :: cs2).takeWhile (· != '/') :: s2 :: t2) =
              (c :: cs2).takeWhile (· != '/') ++ ['/'] ++
                List.intercalate ['/'] (s2 :: t2) from by
          simp [List.intercalate, List.intersperse]]
        rw [← hshape, hintc]
        rw [List.append_assoc]
        rw [show (['/'] ++ (b :: r1) : List Char) = '/' :: b :: r1 from rfl]
        exact hdecomp2
      · refine ⟨by simp, ?_⟩
        intro s hs
        rcases List.mem_cons.mp hs with hs | hs
        · subst hs
          rw [htw]
          exact ⟨by simp, by simp [hcdot]⟩
        · exact hmem2 s hs
termination_by c cs2 => (c :: cs2).length
decreasing_by
  simp_wf
  simp only [List.length_cons] at hlen ⊢
  omega

/-- The segment stack of path.Clean passes nonempty segments that do not
begin with a dot straight through. -/
theorem cleanSegs_all : ∀ (segs acc : List (List Char)),
    (∀ s ∈ segs, s ≠ [] ∧ s.head? ≠ some '.') →
    cleanSegs true acc segs = acc.reverse ++ segs
  | [], acc, _ => by simp [cleanSegs]
  | s :: rest, acc, h => by
    have hs := h s (List.mem_cons_self s rest)
    have h1 : s ≠ ['.'] := fun he => hs.2 (by rw [he]; rfl)
    have h2 : s ≠ ['.', '.'] := fun he => hs.2 (by rw [he]; rfl)
    rw [show cleanSegs true acc (s :: rest) =
          if s = ['.'] then cleanSegs true acc rest
          else if s = ['.', '.'] then
            (match acc, true with
             | [], true => cleanSegs true [] rest
             | _ :: t, true => cleanSegs true t rest
             | [], false => cleanSegs true [['.', '.']] rest
             | t0 :: t, false =>
               if t0 = ['.', '.'] then cleanSegs true (['.', '.'] :: t0 :: t) rest
               else cleanSegs true t rest)
          else cleanSegs true (s :: acc) rest from rfl]
    rw [if_neg h1, if_neg h2]
    rw [cleanSegs_all rest (s :: acc) (fun x hx => h x (List.mem_cons_of_mem s hx))]
    simp

/-- C9: when the fast scan of needsCleaning reports false on a rooted path,
the path is already in normalized form — cleaning it is the identity — and
therefore dispatching on the raw path unchanged is the same as always
dispatching on the cleaned path. -/
theorem claim_C9 :
    (∀ (p : List Char), p.head? = some '/' → needsCleaning p = false →
        pathClean p = p) ∧
    (∀ (p : List Char), p.head? = some '/' →
        (if needsCleaning p then pathClean p else p) = pathClean p) := by
  have main : ∀ (p : List Char), p.head? = some '/' → needsCleaning p = false →
      pathClean p = p := by
    intro p hhead hclean
    obtain ⟨c0, cs, rfl⟩ : ∃ c0 cs, p = c0 :: cs := by
      cases p with
      | nil => simp at hhead
      | cons a as => exact ⟨a, as, rfl⟩
    have hc0 : c0 = '/' := by simpa using hhead
    subst hc0
    simp only [needsCleaning, Bool.or_eq_false_iff, Bool.and_eq_false_iff] at hclean
    have hbad : hasBadPair ('/' :: cs) = false := hclean.2
    cases cs with
    | nil => rfl
    | cons b cs2 =>
      have hb := hasBadPair_after_slash b cs2 hbad
      have hbad2 : hasBadPair (b :: cs2) = false := hasBadPair_tail _ _ hbad
      have hlast : (b :: cs2).getLast? ≠ some '/' := by
        cases cs2 with
        | nil =>
          intro hl
          simp only [List.getLast?_singleton, Option.some_inj] at hl
          exact hb.1 hl
        | cons b2 cs3 =>
          intro hl
          rcases hclean.1 with h1 | h1
          · exfalso
            revert h1
            simp only [decide_eq_false_iff_not, not_not, List.length_cons]
            omega
          · simp only [beq_eq_false_iff_ne, ne_eq] at h1
            exact h1 (by rw [List.getLast?_cons_cons]; exact hl)
      obtain ⟨hintc, hne, hmem⟩ := recombine b cs2 hb.1 hb.2 hbad2 hlast
      have hsplit : splitPath ('/' :: b :: cs2) = splitAux [] (b :: cs2) := by
        simp [splitPath, splitAux]
      rw [show pathClean ('/' :: b :: cs2) =
            (let rooted := (('/' : Char) :: b :: cs2).head? == some '/'
             let segs := cleanSegs rooted [] (splitPath ('/' :: b :: cs2))
             if rooted then
               match segs with
               | [] => ['/']
               | _ => '/' :: List.intercalate ['/'] segs
             else
               match segs with
               | [] => ['.']
               | _ => List.intercalate ['/'] segs) from by
        rw [pathClean, if_neg (by simp)]]
      simp only [List.head?_cons, beq_self_eq_true, if_true]
      rw [hsplit, cleanSegs_all _ [] hmem]
      simp only [List.reverse_nil, List.nil_append]
      obtain ⟨s2, t2, hshape⟩ := List.exists_cons_of_ne_nil hne
      rw [hshape, ← hshape, hintc]
  refine ⟨main, ?_⟩
  intro p hhead
  cases hnc : needsCleaning p with
  | true => simp
  | false => simp [main p hhead hnc]

/-- Witness for C9: the already-clean path /a/b is left unchanged by
path.Clean, as the fast scan promises. -/
theorem claim_C9_witness :
    pathClean "/a/b".data = "/a/b".data ∧
    (if needsCleaning "/a/b".data then pathClean "/a/b".data else "/a/b".data) =
      pathClean "/a/b".data :=
  ⟨claim_C9.1 "/a/b".data (by decide) (by decide),
   claim_C9.2 "/a/b".data (by decide)⟩

/-! ## C5: middleware composition order -/

/-- A trace handler: transforms the response log built so far. -/
def TrH : Type := List String → List String

/-- A trace middleware with a pre-entry and a post-entry: logs pre, runs the
inner handler, logs post. -/
def tmw (pre post : String) : TrH → TrH :=
  fun next log => next (log ++ [pre]) ++ [post]

/-- The terminal trace handler. -/
def tbase : TrH := fun log => log ++ ["handler"]

/-- A short-circuiting middleware: never delegates to the inner handler. -/
def shortMw (tag : String) : TrH → TrH :=
  fun _ log => log ++ [tag]

/-- The nested right-to-left application M1 (M2 (... (Mn h))). -/
def nestApply {α : Type} : List (α → α) → α → α
  | [], h => h
  | m :: ms, h => m (nestApply ms h)

theorem chain_nil {α : Type} (h : α) : chain [] h = h := rfl

theorem chain_cons {α : Type} (m : α → α) (ms : List (α → α)) (h : α) :
    chain (m :: ms) h = m (chain ms h) := by
  simp [chain, List.foldl_append]

/-- C5: the loop of chain wraps right-to-left, so chain(M1..Mn, h) is the
nested application M1(M2(...Mn(h)...)); on a request the first middleware's
pre-logic runs first, then the later ones in order, then the handler, then
the post-logic in reverse order; and a middleware may short-circuit without
delegating, cutting off the whole inner chain. -/
theorem claim_C5 :
    (∀ {α : Type} (ms : List (α → α)) (h : α), chain ms h = nestApply ms h) ∧
    (∀ (ps : List (String × String)) (log : List String),
        chain (ps.map (fun pq => tmw pq.1 pq.2)) tbase log =
          log ++ ps.map Prod.fst ++ ["handler"] ++ ps.reverse.map Prod.snd) ∧
    (∀ (tag : String) (ms : List (TrH → TrH)) (log : List String),
        chain (shortMw tag :: ms) tbase log = log ++ [tag]) := by
  refine ⟨?_, ?_, ?_⟩
  · intro α ms h
    induction ms with
    | nil => rfl
    | cons m ms ih => rw [chain_cons, nestApply, ih]
  · intro ps
    induction ps with
    | nil => intro log; simp [chain, tbase]
    | cons pq ps ih =>
      intro log
      rw [List.map_cons, chain_cons]
      show tmw pq.1 pq.2 (chain (ps.map fun pq => tmw pq.1 pq.2) tbase) log = _
      rw [show tmw pq.1 pq.2 (chain (ps.map fun pq => tmw pq.1 pq.2) tbase) log =
            chain (ps.map fun pq => tmw pq.1 pq.2) tbase (log ++ [pq.1]) ++ [pq.2]
          from rfl]
      rw [ih (log ++ [pq.1])]
      simp
  · intro tag ms log
    rw [chain_cons]
    rfl

/-! ## C8: trailing-slash redirect -/

/-- C8: with trailing-slash redirection enabled, when the trie lookup of
the normalized path succeeds, that path is not the root slash, and the raw
request path ends in a slash, dispatch answers a redirect to the normalized
path — 301 for GET and 308 for every other method — and no route handler
runs; and the redirect check happens only after a successful match, so a
lookup miss always yields the not-found outcome, never a redirect. -/
theorem claim_C8 :
    (∀ {α : Type} (cfg : Config) (t : trie α) (method : String)
        (rawPath urlPath : List Char) (nd : node α),
        cfg.redirectTrailingSlash = true →
        urlPath = (if needsCleaning rawPath then pathClean rawPath else rawPath) →
        t.lookup urlPath = some nd →
        urlPath ≠ ['/'] →
        rawPath.getLast? = some '/' →
        handleRequest cfg t method rawPath =
          .redirect urlPath (if method = "GET" then 301 else 308)) ∧
    (∀ {α : Type} (cfg : Config) (t : trie α) (method : String)
        (rawPath urlPath : List Char),
        urlPath = (if needsCleaning rawPath then pathClean rawPath else rawPath) →
        t.lookup urlPath = none →
        handleRequest cfg t method rawPath = .notFound) := by
  constructor
  · intro α cfg t method rawPath urlPath nd hrts hurl hlook hne hslash
    subst hurl
    unfold handleRequest
    simp only [hlook]
    rw [if_pos ⟨by rw [hrts], hne, hslash⟩]
  · intro α cfg t method rawPath urlPath hurl hlook
    subst hurl
    unfold handleRequest
    simp only [hlook]

/-- Scenario trie with GET and POST /ok registered. -/
def tOK : trie Nat := insD mkTrie "/ok" 0 ["GET", "POST"]

/-- Witness for C8: with redirect enabled and /ok registered, GET /ok/ is a
301 redirect to /ok, POST /ok/ is a 308 redirect to /ok, and POST to the
unregistered /not/ is not-found, not a redirect. -/
theorem claim_C8_witness :
    handleRequest ⟨true⟩ tOK "GET" "/ok/".data = .redirect "/ok".data 301 ∧
    handleRequest ⟨true⟩ tOK "POST" "/ok/".data = .redirect "/ok".data 308 ∧
    handleRequest ⟨true⟩ tOK "POST" "/not/".data = .notFound := by
  refine ⟨?_, ?_, ?_⟩
  · exact claim_C8.1 ⟨true⟩ tOK "GET" "/ok/".data "/ok".data
      (node.mk ['o', 'k'] [] none none [("GET", 0), ("POST", 0)] "")
      rfl (by decide)
      (by simp [tOK, insD, trie.insert, trie.lookup, mkTrie, splitPath, splitAux,
        insertLoop, nmatch, newNode, findSeg, setChild, addHandlers, setMethod,
        isParamSeg, node.handlers, node.children, node.paramChild, node.wildcardChild])
      (by decide) (by decide)
  · exact claim_C8.1 ⟨true⟩ tOK "POST" "/ok/".data "/ok".data
      (node.mk ['o', 'k'] [] none none [("GET", 0), ("POST", 0)] "")
      rfl (by decide)
      (by simp [tOK, insD, trie.insert, trie.lookup, mkTrie, splitPath, splitAux,
        insertLoop, nmatch, newNode, findSeg, setChild, addHandlers, setMethod,
        isParamSeg, node.handlers, node.children, node.paramChild, node.wildcardChild])
      (by decide) (by decide)
  · exact claim_C8.2 ⟨true⟩ tOK "POST" "/not/".data "/not".data rfl
      (by simp [tOK, insD, trie.insert, trie.lookup, mkTrie, splitPath, splitAux,
        insertLoop, nmatch, newNode, findSeg, setChild, addHandlers, setMethod,
        isParamSeg, node.handlers, node.children, node.paramChild, node.wildcardChild])

/-! ## C4: allow header -/

theorem listLe_total : ∀ (x y : List Char), listLe x y = true ∨ listLe y x = true
  | [], _ => Or.inl rfl
  | _ :: _, [] => Or.inr rfl
  | a :: as, b :: bs => by
    by_cases hab : a = b
    · subst hab
      simpa [listLe] using listLe_total as bs
    · rcases lt_or_gt_of_ne hab with h | h
      · left
        simp [listLe, hab, h]
      · right
        simp [listLe, Ne.symm hab, h]

theorem strLe_total (a b : String) : strLe a b = true ∨ strLe b a = true :=
  listLe_total a.data b.data

theorem mem_insertSorted (a s : String) :
    ∀ (l : List String), a ∈ insertSorted s l ↔ a = s ∨ a ∈ l
  | [] => by simp [insertSorted]
  | t :: rest => by
    rw [show insertSorted s (t :: rest) =
          if strLe s t then s :: t :: rest else t :: insertSorted s rest from rfl]
    by_cases hst : strLe s t = true
    · rw [if_pos hst]
      simp
    · rw [if_neg hst]
      simp only [List.mem_cons, mem_insertSorted a s rest]
      tauto

theorem count_insertSorted (a s : String) :
    ∀ (l : List String), (insertSorted s l).count a =
      l.count a + (if s = a then 1 else 0)
  | [] => by
    simp only [insertSorted, List.count_cons, List.count_nil, beq_iff_eq]
  | t :: rest => by
    rw [show insertSorted s (t :: rest) =
          if strLe s t then s :: t :: rest else t :: insertSorted s rest from rfl]
    by_cases hst : strLe s t = true
    · rw [if_pos hst]
      simp only [List.count_cons, beq_iff_eq]
    · rw [if_neg hst]
      simp only [List.count_cons, count_insertSorted a s rest, beq_iff_eq]
      omega

theorem sorted_insertSorted (s : String) :
    ∀ (l : List String), List.Chain' (fun a b => strLe a b = true) l →
      List.Chain' (fun a b => strLe a b = true) (insertSorted s l)
  | [], _ => by simp [insertSorted]
  | t :: rest, h => by
    rw [show insertSorted s (t :: rest) =
          if strLe s t then s :: t :: rest else t :: insertSorted s rest from rfl]
    by_cases hst : strLe s t = true
    · simp only [hst, if_true]
      exact List.chain'_cons.mpr ⟨hst, h⟩
    · simp only [hst, if_false]
      have hts : strLe t s = true := (strLe_total s t).resolve_left hst
      have hrest : List.Chain' (fun a b => strLe a b = true) rest := h.tail
      have ih := sorted_insertSorted s rest hrest
      cases rest with
      | nil =>
        simp only [insertSorted]
        exact List.chain'_cons.mpr ⟨hts, List.chain'_singleton s⟩
      | cons r rs =>
        rw [show insertSorted s (r :: rs) =
              if strLe s r then s :: r :: rs else r :: insertSorted s rs from rfl] at ih ⊢
        by_cases hsr : strLe s r = true
        · simp only [hsr, if_true] at ih ⊢
          exact List.chain'_cons.mpr ⟨hts, ih⟩
        · simp only [hsr, if_false] at ih ⊢
          have htr : strLe t r = true := (List.chain'_cons.mp h).1
          exact List.chain'_cons.mpr ⟨htr, ih⟩

theorem mem_sortStrs (a : String) : ∀ (l : List String), a ∈ sortStrs l ↔ a ∈ l
  | [] => Iff.rfl
  | s :: rest => by
    rw [show sortStrs (s :: rest) = insertSorted s (sortStrs rest) from rfl,
      mem_insertSorted]
    simp [mem_sortStrs a rest]

theorem count_sortStrs (a : String) :
    ∀ (l : List String), (sortStrs l).count a = l.count a
  | [] => rfl
  | s :: rest => by
    rw [show sortStrs (s :: rest) = insertSorted s (sortStrs rest) from rfl]
    simp only [count_insertSorted, count_sortStrs a rest, List.count_cons, beq_iff_eq]

theorem sorted_sortStrs : ∀ (l : List String),
    List.Chain' (fun a b => strLe a b = true) (sortStrs l)
  | [] => List.chain'_nil
  | s :: rest => sorted_insertSorted s (sortStrs rest) (sorted_sortStrs rest)

/-- C4: on a node with a pristine cache and distinct method keys, allow()
returns the comma-and-space-joined, alphabetically sorted list of the
registered methods with OPTIONS included exactly once even when not
registered; a nonempty cache is returned as is; a second call returns the
same string and leaves the node unchanged (memoization); and when dispatch
matches a node that lacks the request method, the outcome carries this allow
list and is auto-options for OPTIONS and method-not-allowed otherwise. -/
theorem claim_C4 :
    (∀ {α : Type} (n : node α), n.allowHeader = "" → (n.handlers.map Prod.fst).Nodup →
        ∃ parts : List String,
          (nAllow n).1 = String.intercalate ", " parts ∧
          List.Chain' (fun a b => strLe a b = true) parts ∧
          (∀ m, m ∈ parts ↔ m ∈ n.handlers.map Prod.fst ∨ m = "OPTIONS") ∧
          parts.count "OPTIONS" = 1) ∧
    (∀ {α : Type} (n : node α), n.allowHeader ≠ "" → nAllow n = (n.allowHeader, n)) ∧
    (∀ {α : Type} (n : node α),
        nAllow ((nAllow n).2) = ((nAllow n).1, (nAllow n).2)) ∧
    (∀ {α : Type} (cfg : Config) (t : trie α) (method : String)
        (rawPath urlPath : List Char) (nd : node α),
        urlPath = (if needsCleaning rawPath then pathClean rawPath else rawPath) →
        t.lookup urlPath = some nd →
        ¬(cfg.redirectTrailingSlash ∧ urlPath ≠ ['/'] ∧ rawPath.getLast? = some '/') →
        findMethod method nd.handlers = none →
        handleRequest cfg t method rawPath =
          (if method = "OPTIONS" then Outcome.autoOptions (nAllow nd).1
           else Outcome.methodNotAllowed (nAllow nd).1)) := by
  refine ⟨?_, ?_, ?_, ?_⟩
  · intro α n hah hnd
    cases n with
    | mk sg ch pc wc hs ah =>
      simp only [node.allowHeader] at hah
      subst hah
      simp only [node.handlers] at hnd ⊢
      refine ⟨sortStrs (if (hs.map Prod.fst).contains "OPTIONS" then hs.map Prod.fst
          else hs.map Prod.fst ++ ["OPTIONS"]), ?_, sorted_sortStrs _, ?_, ?_⟩
      · simp [nAllow, node.allowHeader, node.handlers]
      · intro m
        rw [mem_sortStrs]
        by_cases hopt : (hs.map Prod.fst).contains "OPTIONS"
        · rw [if_pos hopt]
          have hmem : "OPTIONS" ∈ hs.map Prod.fst := by simpa using hopt
          constructor
          · exact fun hm => Or.inl hm
          · rintro (hm | hm)
            · exact hm
            · rw [hm]; exact hmem
        · rw [if_neg hopt]
          simp
      · rw [count_sortStrs]
        by_cases hopt : (hs.map Prod.fst).contains "OPTIONS"
        · rw [if_pos hopt]
          exact List.count_eq_one_of_mem hnd (by simpa using hopt)
        · rw [if_neg hopt]
          rw [List.count_append]
          have hz : (hs.map Prod.fst).count "OPTIONS" = 0 :=
            List.count_eq_zero_of_not_mem (by simpa using hopt)
          simp [hz]
  · intro α n hah
    rw [nAllow, if_neg hah]
  · intro α n
    cases n with
    | mk sg ch pc wc hs ah =>
      by_cases hah : ah = ""
      · subst hah
        have h1 : nAllow (node.mk sg ch pc wc hs "" : node α) =
            (String.intercalate ", " (sortStrs
              (if (hs.map Prod.fst).contains "OPTIONS" = true then hs.map Prod.fst
               else hs.map Prod.fst ++ ["OPTIONS"])),
             node.mk sg ch pc wc hs (String.intercalate ", " (sortStrs
              (if (hs.map Prod.fst).contains "OPTIONS" = true then hs.map Prod.fst
               else hs.map Prod.fst ++ ["OPTIONS"])))) := by
          simp [nAllow, node.allowHeader, node.handlers]
        rw [h1]
        by_cases hs2 : String.intercalate ", " (sortStrs
            (if (hs.map Prod.fst).contains "OPTIONS" = true then hs.map Prod.fst
             else hs.map Prod.fst ++ ["OPTIONS"])) = ""
        · simp [nAllow, node.allowHeader, node.handlers, hs2]
        · simp [nAllow, node.allowHeader, hs2]
      · have h1 : nAllow (node.mk sg ch pc wc hs ah : node α) =
            (ah, node.mk sg ch pc wc hs ah) := by
          simp [nAllow, node.allowHeader, hah]
        simp [h1]
  · intro α cfg t method rawPath urlPath nd hurl hlook hnored hfm
    subst hurl
    unfold handleRequest
    simp only [hlook, hfm, if_neg hnored]

/-- Witness for C4: a node with GET and HEAD registered reports exactly the
sorted list GET, HEAD, OPTIONS. -/
theorem claim_C4_witness :
    ((node.mk ([] : List Char) [] none none [("GET", 0), ("HEAD", 0)]
        "" : node Nat).allowHeader = "" ∧
      ((node.mk ([] : List Char) [] none none [("GET", 0), ("HEAD", 0)]
        "" : node Nat).handlers.map Prod.fst).Nodup) ∧
    (∃ parts : List String,
      (nAllow (node.mk ([] : List Char) [] none none [("GET", 0), ("HEAD", 0)]
        "" : node Nat)).1 = String.intercalate ", " parts ∧
      List.Chain' (fun a b => strLe a b = true) parts ∧
      (∀ m, m ∈ parts ↔
        m ∈ (node.mk ([] : List Char) [] none none [("GET", 0), ("HEAD", 0)]
          "" : node Nat).handlers.map Prod.fst ∨ m = "OPTIONS") ∧
      parts.count "OPTIONS" = 1) ∧
    (nAllow (node.mk ([] : List Char) [] none none [("GET", 0), ("HEAD", 0)]
        "" : node Nat)).1 = "GET, HEAD, OPTIONS" :=
  ⟨⟨rfl, by decide⟩,
   claim_C4.1 (node.mk ([] : List Char) [] none none [("GET", 0), ("HEAD", 0)] "")
     rfl (by decide),
   by decide⟩

/-! ## C7: configuration errors are registration-time failures -/

/-- True exactly on the error constructor. -/
def isErr {β : Type} : Except String β → Bool
  | .error _ => true
  | .ok _ => false

/-- The two pattern-syntactic error conditions of the spec: a wildcard
segment that is not the final segment, or a parameter segment with an empty
name. -/
def hasBadSeg : List (List Char) → Bool
  | [] => false
  | s :: rest =>
    (s == ['*'] && !rest.isEmpty) || (isParamSeg s && (paramName s).isEmpty) ||
      hasBadSeg rest

/-- The semantic error condition of the spec: somewhere along the walk of
the pattern through the existing trie, a parameter segment meets a parameter
child registered under a different name at the same level.  The walk follows
existing children only; a segment that leaves the existing trie can no
longer conflict. -/
def hasConflict {α : Type} : node α → List (List Char) → Bool
  | _, [] => false
  | n, s :: rest =>
    if isParamSeg s then
      if (paramName s).isEmpty then false
      else
        match n.paramChild with
        | none => false
        | some p => (!(p.segment == paramName s)) || hasConflict p rest
    else if s == ['*'] then
      match n.wildcardChild with
      | none => false
      | some w => hasConflict w rest
    else
      match findSeg s n.children with
      | none => false
      | some c => hasConflict c rest

theorem hasConflict_newNode {α : Type} (x : List Char) (segs : List (List Char)) :
    hasConflict (newNode x : node α) segs = false := by
  cases segs with
  | nil => rfl
  | cons s rest =>
    rw [show hasConflict (newNode x : node α) (s :: rest) =
          (if isParamSeg s then
            if (paramName s).isEmpty then false
            else
              match (newNode x : node α).paramChild with
              | none => false
              | some p => (!(p.segment == paramName s)) || hasConflict p rest
          else if s == ['*'] then
            match (newNode x : node α).wildcardChild with
            | none => false
            | some w => hasConflict w rest
          else
            match findSeg s (newNode x : node α).children with
            | none => false
            | some c => hasConflict c rest) from rfl]
    by_cases h1 : isParamSeg s = true
    · by_cases h2 : (paramName s).isEmpty = true <;>
        simp [h1, h2, newNode, node.paramChild]
    · by_cases h3 : (s == ['*']) = true <;>
        simp [h1, h3, newNode, node.wildcardChild, node.children, findSeg]

theorem insertErr_eq {α : Type} : ∀ (segs : List (List Char)) (n : node α)
    (h : α) (ms : List String),
    isErr (insertLoop n segs h ms) = (hasBadSeg segs || hasConflict n segs)
  | [], n, h, ms => by
    cases n
    simp [insertLoop, isErr, hasBadSeg, hasConflict]
  | s :: rest, n, h, ms => by
    cases n with
    | mk sg ch pc wc hs ah =>
    simp only [insertLoop]
    by_cases h1 : s = ['*'] ∧ rest ≠ []
    · rw [if_pos h1]
      have hbs : hasBadSeg (s :: rest) = true := by
        simp [hasBadSeg, h1.1, h1.2, List.isEmpty_iff]
      simp [isErr, hbs]
    · rw [if_neg h1]
      by_cases h2 : isParamSeg s = true
      · rw [if_pos h2]
        have hnotstar : ¬(s == ['*']) = true := by
          intro hc
          rw [show s = ['*'] from by simpa using hc] at h2
          simp [isParamSeg] at h2
        by_cases h3 : paramName s = []
        · rw [if_pos h3]
          have hbs : hasBadSeg (s :: rest) = true := by
            simp [hasBadSeg, h2, h3]
          simp [isErr, hbs]
        · rw [if_neg h3]
          have hbseq : hasBadSeg (s :: rest) = hasBadSeg rest := by
            simp [hasBadSeg, List.isEmpty_iff, h3, hnotstar]
          cases pc with
          | none =>
            have ih := insertErr_eq rest (newNode (paramName s) : node α) h ms
            rw [hasConflict_newNode, Bool.or_false] at ih
            have hcf : hasConflict (node.mk sg ch none wc hs ah) (s :: rest) = false := by
              simp [hasConflict, h2, h3, List.isEmpty_iff, node.paramChild]
            rw [hbseq, hcf, Bool.or_false]
            generalize hres : insertLoop (newNode (paramName s) : node α) rest h ms = res
              at ih ⊢
            cases res with
            | error e => simpa [isErr] using ih
            | ok c => simpa [isErr] using ih
          | some p =>
            have hcf : hasConflict (node.mk sg ch (some p) wc hs ah) (s :: rest) =
                ((!(p.segment == paramName s)) || hasConflict p rest) := by
              simp [hasConflict, h2, h3, List.isEmpty_iff, node.paramChild]
            rw [hbseq, hcf]
            simp only []
            by_cases h4 : p.segment ≠ paramName s
            · rw [if_pos h4]
              have hbt : (!(p.segment == paramName s)) = true := by
                simpa using h4
              simp [isErr, hbt]
            · rw [if_neg h4]
              have heq : p.segment = paramName s := not_not.mp h4
              have hbe : (!(p.segment == paramName s)) = false := by
                simpa using heq
              rw [hbe, Bool.false_or]
              have ih := insertErr_eq rest p h ms
              generalize hres : insertLoop p rest h ms = res at ih ⊢
              cases res with
              | error e => simpa [isErr] using ih
              | ok c => simpa [isErr] using ih
      · rw [if_neg h2]
        by_cases h3 : s = ['*']
        · rw [if_pos h3]
          have hrest : rest = [] := by
            by_contra hcon
            exact h1 ⟨h3, hcon⟩
          subst hrest
          subst h3
          have hbs : hasBadSeg [['*']] = false := by decide
          have hcf : hasConflict (node.mk sg ch pc wc hs ah) [['*']] = false := by
            cases wc <;> simp [hasConflict, isParamSeg, node.wildcardChild]
          rw [hbs, hcf]
          cases wc with
          | none =>
            generalize hres : insertLoop (newNode ['*'] : node α) [] h ms = res
            cases res with
            | error e => simp [insertLoop] at hres
            | ok c => simp [isErr]
          | some w =>
            simp only []
            generalize hres : insertLoop w [] h ms = res
            cases res with
            | error e =>
              cases w
              simp [insertLoop] at hres
            | ok c => simp [isErr]
        · rw [if_neg h3]
          have hbseq : hasBadSeg (s :: rest) = hasBadSeg rest := by
            simp [hasBadSeg, h3, h2]
          have hstar : (s == ['*']) = false := by simpa using h3
          cases hfs : findSeg s ch with
          | none =>
            have ih := insertErr_eq rest (newNode s : node α) h ms
            rw [hasConflict_newNode, Bool.or_false] at ih
            have hcf : hasConflict (node.mk sg ch pc wc hs ah) (s :: rest) = false := by
              simp [hasConflict, h2, hstar, node.children, hfs]
            rw [hbseq, hcf, Bool.or_false]
            generalize hres : insertLoop (newNode s : node α) rest h ms = res at ih ⊢
            cases res with
            | error e => simpa [isErr] using ih
            | ok c => simpa [isErr] using ih
          | some c0 =>
            have ih := insertErr_eq rest c0 h ms
            have hcf : hasConflict (node.mk sg ch pc wc hs ah) (s :: rest) =
                hasConflict c0 rest := by
              simp [hasConflict, h2, hstar, node.children, hfs]
            rw [hbseq, hcf]
            simp only []
            generalize hres : insertLoop c0 rest h ms = res at ih ⊢
            cases res with
            | error e => simpa [isErr] using ih
            | ok c => simpa [isErr] using ih

/-- C7: insert fails exactly when the pattern contains an empty parameter
name or a non-final wildcard segment, or a parameter name conflicts with a
previously registered parameter name at the same trie level; and Use on the
root router fails exactly when the root dispatch handler has already been
constructed. -/
theorem claim_C7 :
    (∀ {α : Type} (n : node α) (segs : List (List Char)) (h : α) (ms : List String),
        isErr (insertLoop n segs h ms) = (hasBadSeg segs || hasConflict n segs)) ∧
    (∀ {α : Type} (t : trie α) (pattern : List Char) (h : α) (ms : List String),
        isErr (t.insert pattern h ms) =
          (hasBadSeg (splitPath pattern) || hasConflict t.root (splitPath pattern))) ∧
    (∀ {α : Type} (r : SubR α) (t : trie α) (built : Bool) (ms : List (α → α)),
        isErr (runOps r t built [.use ms]) = (r.isRoot && built)) := by
  refine ⟨?_, ?_, ?_⟩
  · intro α n segs h ms
    exact insertErr_eq segs n h ms
  · intro α t pattern h ms
    rw [show t.insert pattern h ms =
          (match insertLoop t.root (splitPath pattern) h ms with
           | .ok r => .ok (⟨r⟩ : trie α)
           | .error e => .error e) from rfl]
    have hiff := insertErr_eq (splitPath pattern) t.root h ms
    generalize hres : insertLoop t.root (splitPath pattern) h ms = res at hiff ⊢
    cases res with
    | error e => simpa [isErr] using hiff
    | ok c => simpa [isErr] using hiff
  · intro α r t built ms
    have hstep : runOps r t built [.use ms] =
        (if r.isRoot ∧ built then
          .error "rush: all root-level middlewares must be defined before routes"
        else runOps { r with middlewares := r.middlewares ++ ms } t built []) := by
      simp only [runOps]
    have hnil : ∀ (r2 : SubR α), runOps r2 t built [] = .ok (r2, t, built) := by
      intro r2
      simp only [runOps]
    rw [hstep]
    by_cases hc : r.isRoot ∧ built
    · rw [if_pos hc]
      simp [isErr, hc.1, hc.2]
    · rw [if_neg hc, hnil]
      have hfalse : (r.isRoot && built) = false := by
        by_cases hr : r.isRoot = true
        · by_cases hb : built = true
          · exact absurd ⟨hr, hb⟩ hc
          · have hb2 : built = false := by simpa using hb
            simp [hr, hb2]
        · have hr2 : r.isRoot = false := by simpa using hr
          simp [hr2]
      simp [isErr, hfalse]

/-! ## C6: group isolation and no retroactive middleware -/

/-- Walk literal children only (scenario scaffolding). -/
def walkLit {α : Type} : node α → List (List Char) → Option (node α)
  | n, [] => some n
  | n, s :: rest =>
    match findSeg s n.children with
    | some c => walkLit c rest
    | none => none

/-- The trace produced by the handler stored for GET at a literal pattern,
applied to the empty log (scenario scaffolding). -/
def storedTrace (t : trie TrH) (pat : String) : Option (List String) :=
  match walkLit t.root (splitPath pat.data) with
  | some nd =>
    match findMethod "GET" nd.handlers with
    | some f => some (f [])
    | none => none
  | none => none

/-- The root router instance of the nested-group scenario. -/
def rootR : SubR TrH := ⟨[], [], true⟩

/-- Group middleware m4 of the scenario. -/
def c6m4 : TrH → TrH := tmw "m4" "m4x"

/-- Nested-group middleware m5 of the scenario. -/
def c6m5 : TrH → TrH := tmw "m5" "m5x"

/-- Sibling-group middleware m6 of the scenario. -/
def c6m6 : TrH → TrH := tmw "m6" "m6x"

/-- Nested-group registration scenario mirroring the middleware test: a
group adding m4 with route /2 and a nested group adding m5 with route /3, a
sibling group adding m6 with route /4, and a final root route /5. -/
def scriptC6 : List (RegOp TrH) :=
  [.group [.use [c6m4], .handle "/2".data tbase [],
     .group [.use [c6m5], .handle "/3".data tbase []]],
   .group [.use [c6m6], .handle "/4".data tbase []],
   .handle "/5".data tbase []]

/-- A route node of the scenario tries: one literal segment with a handler
registered for the whole default method set. -/
def c6node (d : Char) (h : TrH) : node TrH :=
  .mk [d] [] none none
    [("GET", h), ("HEAD", h), ("POST", h), ("PUT", h), ("PATCH", h), ("DELETE", h),
     ("CONNECT", h), ("OPTIONS", h), ("TRACE", h)] ""

/-- The scenario trie after registering /2 inside the first group. -/
def c6t2 : trie TrH :=
  ⟨.mk ['/'] [(['2'], c6node '2' (chain [c6m4] tbase))] none none [] ""⟩

/-- The scenario trie after also registering /3 inside the nested group. -/
def c6t3 : trie TrH :=
  ⟨.mk ['/'] [(['2'], c6node '2' (chain [c6m4] tbase)),
    (['3'], c6node '3' (chain [c6m4, c6m5] tbase))] none none [] ""⟩

/-- The scenario trie after also registering /4 inside the sibling group. -/
def c6t4 : trie TrH :=
  ⟨.mk ['/'] [(['2'], c6node '2' (chain [c6m4] tbase)),
    (['3'], c6node '3' (chain [c6m4, c6m5] tbase)),
    (['4'], c6node '4' (chain [c6m6] tbase))] none none [] ""⟩

/-- The final scenario trie after also registering /5 at the root. -/
def c6t5 : trie TrH :=
  ⟨.mk ['/'] [(['2'], c6node '2' (chain [c6m4] tbase)),
    (['3'], c6node '3' (chain [c6m4, c6m5] tbase)),
    (['4'], c6node '4' (chain [c6m6] tbase)),
    (['5'], c6node '5' tbase)] none none [] ""⟩

theorem runOps_nil {α : Type} (r : SubR α) (t : trie α) (b : Bool) :
    runOps r t b [] = .ok (r, t, b) := by
  simp only [runOps]

theorem runOps_use_sub {α : Type} (pfx : List Char) (mws new : List (α → α))
    (t : trie α) (b : Bool) (rest : List (RegOp α)) :
    runOps ⟨pfx, mws, false⟩ t b (.use new :: rest) =
      runOps ⟨pfx, mws ++ new, false⟩ t b rest := by
  simp only [runOps]
  rw [if_neg (by simp)]

theorem runOps_handle_sub {α : Type} {pfx : List Char} {mws : List (α → α)}
    {t : trie α} {b : Bool} {p : List Char} {h : α} {ms : List String}
    {rest : List (RegOp α)} {t2 : trie α}
    (hins : trie.insert t (pfx ++ p) (chain mws h) (normalizeMethods ms) = .ok t2) :
    runOps ⟨pfx, mws, false⟩ t b (.handle p h ms :: rest) =
      runOps ⟨pfx, mws, false⟩ t2 b rest := by
  simp only [runOps, Bool.false_eq_true, if_false, ite_false]
  rw [hins]

theorem runOps_handle_root {α : Type} {pfx : List Char} {mws : List (α → α)}
    {t : trie α} {b : Bool} {p : List Char} {h : α} {ms : List String}
    {rest : List (RegOp α)} {t2 : trie α}
    (hins : trie.insert t (pfx ++ p) h (normalizeMethods ms) = .ok t2) :
    runOps ⟨pfx, mws, true⟩ t b (.handle p h ms :: rest) =
      runOps ⟨pfx, mws, true⟩ t2 true rest := by
  simp only [runOps, if_true, ite_true]
  rw [hins]

theorem runOps_group_sub {α : Type} {pfx : List Char} {mws : List (α → α)}
    {t : trie α} {b : Bool} {body rest : List (RegOp α)} {r2 : SubR α}
    {t2 : trie α} {b2 : Bool}
    (hbody : runOps ⟨pfx, mws, false⟩ t b body = .ok (r2, t2, b2)) :
    runOps ⟨pfx, mws, false⟩ t b (.group body :: rest) =
      runOps ⟨pfx, mws, false⟩ t2 b2 rest := by
  simp only [runOps, cloneChain, Bool.false_eq_true, if_false, ite_false]
  rw [hbody]

theorem runOps_group_root {α : Type} {pfx : List Char} {mws : List (α → α)}
    {t : trie α} {b : Bool} {body rest : List (RegOp α)} {r2 : SubR α}
    {t2 : trie α} {b2 : Bool}
    (hbody : runOps ⟨pfx, ([] : List (α → α)), false⟩ t b body = .ok (r2, t2, b2)) :
    runOps ⟨pfx, mws, true⟩ t b (.group body :: rest) =
      runOps ⟨pfx, mws, true⟩ t2 b2 rest := by
  simp only [runOps, cloneChain, if_true, ite_true]
  rw [hbody]

/-- C6: Use only appends to the calling instance's own chain and never
touches the shared trie, so routes already registered (anywhere) keep the
handler they were stored with; a group leaves the calling instance
untouched, so middleware added inside it cannot affect routes registered
through the parent or a sibling afterwards; a Handle on a sub-router stores
the handler wrapped with exactly that instance's chain as it is at
registration time; and in the nested-group scenario the stored handlers of
the four routes observe exactly their own group chains. -/
theorem claim_C6 :
    (∀ {α : Type} (r : SubR α) (t : trie α) (built : Bool) (ms : List (α → α))
        (r2 : SubR α) (t2 : trie α) (b2 : Bool),
        runOps r t built [.use ms] = .ok (r2, t2, b2) →
        t2 = t ∧ b2 = built ∧ r2 = { r with middlewares := r.middlewares ++ ms }) ∧
    (∀ {α : Type} (r : SubR α) (t : trie α) (built : Bool) (body : List (RegOp α))
        (r2 : SubR α) (t2 : trie α) (b2 : Bool),
        runOps r t built [.group body] = .ok (r2, t2, b2) → r2 = r) ∧
    (∀ {α : Type} (r : SubR α) (t : trie α) (built : Bool) (p : List Char) (h : α)
        (ms : List String) (r2 : SubR α) (t2 : trie α) (b2 : Bool),
        r.isRoot = false →
        runOps r t built [.handle p h ms] = .ok (r2, t2, b2) →
        r2 = r ∧ b2 = built ∧
          t.insert (r.pfx ++ p) (chain r.middlewares h) (normalizeMethods ms) = .ok t2) ∧
    (runOps rootR mkTrie false scriptC6).toOption.map
        (fun res => (res.2.2, storedTrace res.2.1 "/2",
          storedTrace res.2.1 "/3", storedTrace res.2.1 "/4",
          storedTrace res.2.1 "/5")) =
      some (true, some ["m4", "handler", "m4x"],
        some ["m4", "m5", "handler", "m5x", "m4x"], some ["m6", "handler", "m6x"],
        some ["handler"]) := by
  refine ⟨?_, ?_, ?_, ?_⟩
  · intro α r t built ms r2 t2 b2 hyp
    have hnil : ∀ (r3 : SubR α), runOps r3 t built [] = .ok (r3, t, built) := by
      intro r3
      simp only [runOps]
    simp only [runOps] at hyp
    by_cases hc : r.isRoot ∧ built
    · rw [if_pos hc] at hyp
      cases hyp
    · rw [if_neg hc] at hyp
      cases hyp
      exact ⟨rfl, rfl, rfl⟩
  · intro α r t built body r2 t2 b2 hyp
    simp only [runOps] at hyp
    generalize hrun : runOps ⟨r.pfx, cloneChain r, false⟩ t built body = res at hyp
    cases res with
    | error e => cases hyp
    | ok val =>
      obtain ⟨r3, t3, b3⟩ := val
      simp only [runOps] at hyp
      cases hyp
      rfl
  · intro α r t built p h ms r2 t2 b2 hroot hyp
    simp only [runOps, hroot, Bool.false_eq_true, if_false] at hyp
    generalize hres : t.insert (r.pfx ++ p) (chain r.middlewares h)
      (normalizeMethods ms) = res at hyp
    cases res with
    | error e => cases hyp
    | ok t3 =>
      simp only [runOps] at hyp
      cases hyp
      exact ⟨rfl, rfl, rfl⟩
  · have hin2 : trie.insert mkTrie (([] : List Char) ++ "/2".data)
        (chain ([] ++ [c6m4]) tbase) (normalizeMethods []) = .ok c6t2 := rfl
    have hin3 : trie.insert c6t2 (([] : List Char) ++ "/3".data)
        (chain (([] ++ [c6m4]) ++ [c6m5]) tbase) (normalizeMethods []) =
        .ok c6t3 := rfl
    have hin4 : trie.insert c6t3 (([] : List Char) ++ "/4".data)
        (chain ([] ++ [c6m6]) tbase) (normalizeMethods []) = .ok c6t4 := rfl
    have hin5 : trie.insert c6t4 (([] : List Char) ++ "/5".data)
        tbase (normalizeMethods []) = .ok c6t5 := rfl
    have hB : runOps (⟨[], [] ++ [c6m4], false⟩ : SubR TrH) c6t2 false
        [.use [c6m5], .handle "/3".data tbase []] =
        .ok (⟨[], ([] ++ [c6m4]) ++ [c6m5], false⟩, c6t3, false) := by
      rw [runOps_use_sub, runOps_handle_sub hin3, runOps_nil]
    have hA : runOps (⟨[], ([] : List (TrH → TrH)), false⟩ : SubR TrH) mkTrie false
        [.use [c6m4], .handle "/2".data tbase [],
         .group [.use [c6m5], .handle "/3".data tbase []]] =
        .ok (⟨[], [] ++ [c6m4], false⟩, c6t3, false) := by
      rw [runOps_use_sub, runOps_handle_sub hin2, runOps_group_sub hB, runOps_nil]
    have hC : runOps (⟨[], ([] : List (TrH → TrH)), false⟩ : SubR TrH) c6t3 false
        [.use [c6m6], .handle "/4".data tbase []] =
        .ok (⟨[], [] ++ [c6m6], false⟩, c6t4, false) := by
      rw [runOps_use_sub, runOps_handle_sub hin4, runOps_nil]
    have hTop : runOps rootR mkTrie false scriptC6 = .ok (rootR, c6t5, true) := by
      simp only [rootR, scriptC6]
      rw [runOps_group_root hA, runOps_group_root hC, runOps_handle_root hin5,
        runOps_nil]
    rw [hTop]
    rfl

/-- A concrete middleware on Nat handlers (witness scaffolding). -/
def incMw : Nat → Nat := fun x => x + 1

/-- Witness for C6: a concrete Use on a sub-router leaves the trie and the
built flag unchanged and only extends the instance chain. -/
theorem claim_C6_witness :
    tAB = tAB ∧ false = false ∧
      (⟨[], [incMw], false⟩ : SubR Nat) =
        { (⟨[], [], false⟩ : SubR Nat) with
            middlewares := ([] : List (Nat → Nat)) ++ [incMw] } :=
  claim_C6.1 (⟨[], [], false⟩ : SubR Nat) tAB false [incMw]
    (⟨[], [incMw], false⟩ : SubR Nat) tAB false (by simp [runOps])

end Rush
